import Mathlib

/-!
Shallow embedding of the transcript post-processing core of
`src/backend/lambda_function.py` (the single backend module of this
repository), together with proofs about the claims of its specification.

Modelling conventions:
* Python `str` is modelled as Lean `String` (a list of unicode code points);
  character-level scanning is done on `String.data : List Char`.
* Python `float` timestamps are modelled as `Rat`: the claims under study only
  compare timestamps, and the comparisons involved are exact.
* Python's `re.sub(r"\s+", ...)`/`str.split()` whitespace class is modelled by
  the six ASCII whitespace characters; all inputs of interest are ASCII.
* Python dicts keyed by strings are modelled positionally (association lists /
  index maps); `set` iteration order (used only to break ties of `sorted`
  key functions) is modelled as first-occurrence order.
-/

namespace Lumi

/-- ASCII whitespace, the characters matched by `\s` and `str.split()` for the
ASCII inputs this development deals with. -/
def isPySpace (c : Char) : Bool :=
  c = ' ' || c = '\t' || c = '\n' || c = '\r' || c = Char.ofNat 11 || c = Char.ofNat 12

/-- ASCII lower-casing of a single character, modelling `str.lower()` on the
ASCII texts of interest. -/
def asciiLower (c : Char) : Char :=
  if 'A' ≤ c && c ≤ 'Z' then Char.ofNat (c.toNat + 32) else c

/-- Model of `str.lower()` on a whole string (ASCII). -/
def asciiLowerStr (s : String) : String :=
  ⟨s.data.map asciiLower⟩

/-- A character matched by the word pattern `_WORD_RE = [A-Za-z']+`. -/
def isWordChar (c : Char) : Bool :=
  ('A' ≤ c && c ≤ 'Z') || ('a' ≤ c && c ≤ 'z') || c = Char.ofNat 39

/-- Maximal runs of characters satisfying `p`, scanning left to right;
`acc` holds the (reversed) characters of the run in progress.  This is the
common engine behind `str.split()` (runs of non-whitespace) and
`_WORD_RE.findall` (runs of letters/apostrophes). -/
def runsBy (p : Char → Bool) : List Char → List Char → List (List Char)
  | acc, [] => if acc.isEmpty then [] else [acc.reverse]
  | acc, c :: cs =>
    if p c then runsBy p (c :: acc) cs
    else if acc.isEmpty then runsBy p [] cs
    else acc.reverse :: runsBy p [] cs

/-- Model of `str.split()` with no separator: the maximal whitespace-free runs. -/
def chWords (cs : List Char) : List (List Char) :=
  runsBy (fun c => !isPySpace c) [] cs

/-- Model of `" ".join(ws)` at the character level. -/
def joinWordsCh : List (List Char) → List Char
  | [] => []
  | [w] => w
  | w :: w' :: ws => w ++ ' ' :: joinWordsCh (w' :: ws)

/-- Model of `_norm_space`: collapse whitespace runs to single spaces and trim.
`re.sub(r"\s+", " ", s.strip())` is exactly `" ".join(s.split())`. -/
def norm_space (s : String) : String :=
  ⟨joinWordsCh (chWords s.data)⟩

/-- Model of `str.split(sep)` for a one-character separator `sep`, keeping empty
pieces (Python semantics for an explicit separator). -/
def splitSep (sep : Char) : List Char → List (List Char)
  | [] => [[]]
  | c :: cs =>
    match splitSep sep cs with
    | [] => [[c]]
    | h :: t => if c = sep then [] :: h :: t else (c :: h) :: t

/-- The numeric value of a nonempty all-digit character list. -/
def digitsVal : List Char → Option Nat
  | [] => none
  | [c] => if c.isDigit then some (c.toNat - '0'.toNat) else none
  | c :: c' :: cs =>
    if c.isDigit then
      match digitsVal (c' :: cs) with
      | some v => some ((c.toNat - '0'.toNat) * 10 ^ (c' :: cs).length + v)
      | none => none
    else none

/-- Python `int(s)` on a string: optional surrounding whitespace, an optional
sign, then one or more digits; `none` when `int` would raise `ValueError`.
(Underscore digit grouping and non-ASCII digits never occur at the call
sites modelled here, where the argument is a piece of a `split`.) -/
def pyInt? (cs : List Char) : Option Int :=
  let t := (cs.dropWhile isPySpace).reverse.dropWhile isPySpace |>.reverse
  match t with
  | '+' :: rest => (digitsVal rest).map Int.ofNat
  | '-' :: rest => (digitsVal rest).map fun n => -(n : Int)
  | rest => (digitsVal rest).map Int.ofNat

/-!  ### De-duplication utilities (`_dedupe_immediate_repeated_ngrams`, `_dedupe_text`) -/

/-- The inner `for n in range(max_n_here, n_min - 1, -1)` search of
`_dedupe_immediate_repeated_ngrams`: the largest `n` with `n_min ≤ n ≤ hi`
such that the `n` words starting at the cursor equal the following `n`
words, if any.  (Only `n ≥ 1` is ever examined: the call sites use
`n_min = 2`.) -/
def findRepeat (n_min : Nat) (rest : List (List Char)) : Nat → Option Nat
  | 0 => none
  | hi + 1 =>
    if hi + 1 < n_min then none
    else if rest.take (hi + 1) = (rest.drop (hi + 1)).take (hi + 1) then some (hi + 1)
    else findRepeat n_min rest hi

/-- The main `while i < len(words)` loop of `_dedupe_immediate_repeated_ngrams`,
with the tail of the word list standing for the cursor position.  `fuel` is an
upper bound on the number of iterations; every iteration consumes at least one
word (since `findRepeat` only returns `n ≥ 1`), so `fuel = length` makes the
exhaustion branch unreachable. -/
def dedupeGo (n_min n_max : Nat) : Nat → List (List Char) → List (List Char)
  | _, [] => []
  | 0, ws => ws
  | fuel + 1, w :: ws =>
    match findRepeat n_min (w :: ws) (min n_max ((w :: ws).length / 2)) with
    | some n => (w :: ws).take n ++ dedupeGo n_min n_max fuel ((w :: ws).drop (2 * n))
    | none => w :: dedupeGo n_min n_max fuel ws

/-- Model of `_dedupe_immediate_repeated_ngrams(text, n_min, n_max)`. -/
def dedupe_immediate_repeated_ngrams (text : String) (n_min n_max : Nat) : String :=
  let words := chWords (norm_space text).data
  if words.length < 2 * n_min then ⟨joinWordsCh words⟩
  else ⟨joinWordsCh (dedupeGo n_min n_max words.length words)⟩

/-- Model of `_dedupe_text`: two fixed passes of immediate n-gram repetition removal
(`n_min = 2`, `n_max = 12`) followed by whitespace normalization. -/
def dedupe_text (text : String) : String :=
  norm_space
    (dedupe_immediate_repeated_ngrams (dedupe_immediate_repeated_ngrams text 2 12) 2 12)

/-!  ### Speaker lines and cross-turn duplicate removal -/

/-- One speaker turn, the dict `{"speaker": ..., "text": ...}`. -/
structure Line where
  speaker : String
  text : String
deriving DecidableEq, Repr

/-- The loop body of `_drop_consecutive_duplicate_lines`, carrying `prev_key`
(`none` models Python's initial `None`). -/
def drop_consecutive_duplicate_lines_aux (prev_key : Option String) :
    List Line → List Line
  | [] => []
  | ln :: rest =>
    let txt := asciiLowerStr (norm_space ln.text)
    if txt = "" then drop_consecutive_duplicate_lines_aux prev_key rest
    else if some txt = prev_key then drop_consecutive_duplicate_lines_aux prev_key rest
    else ln :: drop_consecutive_duplicate_lines_aux (some txt) rest

/-- Model of `_drop_consecutive_duplicate_lines`. -/
def drop_consecutive_duplicate_lines (lines : List Line) : List Line :=
  drop_consecutive_duplicate_lines_aux none lines

/-- Modelled from the spec's words for comparison (refinement for the
cross-turn duplicate-collapse claim): drop a turn exactly when its
case-folded, whitespace-normalized text equals the previous surviving
turn's normalized text, with no further filtering. -/
def specDropConsecutiveAux (prev : Option String) : List Line → List Line
  | [] => []
  | ln :: rest =>
    let k := asciiLowerStr (norm_space ln.text)
    if some k = prev then specDropConsecutiveAux prev rest
    else ln :: specDropConsecutiveAux (some k) rest

/-- Spec-side cross-turn duplicate collapse (see `specDropConsecutiveAux`). -/
def specDropConsecutive (lines : List Line) : List Line :=
  specDropConsecutiveAux none lines

/-!  ### Keyed sorting (Python `sorted(..., key=...)`)

Python's `sorted` is a stable sort comparing only the key values; a stable
sort's output is uniquely determined by the input order and the key, so
`List.insertionSort` (stable, see the example in `Mathlib.Data.List.Sort`)
over the key-induced preorder is a faithful model. -/

/-- Comparison of integer key values: the order used by `sorted(..., key=k)`
for an integer-valued key function `k`. -/
def keyLeInt (k : String → Int) (a b : String) : Prop :=
  k a ≤ k b

instance (k : String → Int) : DecidableRel (keyLeInt k) :=
  fun a b => inferInstanceAs (Decidable (k a ≤ k b))

instance (k : String → Int) : IsTotal String (keyLeInt k) :=
  ⟨fun a b => le_total (k a) (k b)⟩

instance (k : String → Int) : IsTrans String (keyLeInt k) :=
  ⟨fun _ _ _ h h' => le_trans h h'⟩

/-- Distinct elements of a list in first-occurrence order: the model of
building a Python `set`/`dict` keyed by the listed values (set iteration
order is modelled as insertion order; it only influences how `sorted`
breaks key ties). -/
def dedupFirstAux (seen : List String) : List String → List String
  | [] => []
  | a :: l =>
    if a ∈ seen then dedupFirstAux seen l
    else a :: dedupFirstAux (a :: seen) l

/-- See `dedupFirstAux`. -/
def dedupFirst (l : List String) : List String :=
  dedupFirstAux [] l

/-!  ### Unique words per speaker (`_unique_words_by_speaker`) -/

/-- One entry of the `unique_words` output. -/
structure VocabEntry where
  speaker : String
  unique_word_count : Nat
  unique_words_sample : List String
deriving DecidableEq, Repr

/-- Model of `_WORD_RE.findall(txt)` followed by `.lower()`: the case-folded maximal
runs of letters/apostrophes of a text. -/
def wordTokens (txt : String) : List String :=
  (runsBy isWordChar [] txt.data).map fun w => String.mk (w.map asciiLower)

/-- The `spk_num` key of `_unique_words_by_speaker`:
`int(s.split(" ")[1])`, with `999999` when that raises. -/
def spk_num (s : String) : Int :=
  match (splitSep ' ' s.data).get? 1 with
  | some piece => (pyInt? piece).getD 999999
  | none => 999999

/-- The dict key used by `words_map`: `ln.get("speaker") or "speaker 1"`
(an empty speaker string is falsy and falls back to `"speaker 1"`). -/
def effSpeaker (ln : Line) : String :=
  if ln.speaker = "" then "speaker 1" else ln.speaker

/-- The keys of `words_map` in insertion order. -/
def speakersInOrder (lines : List Line) : List String :=
  dedupFirst (lines.map effSpeaker)

/-- All (lower-cased) word tokens contributed to `words_map[sp]`, with
multiplicity, in order. -/
def wordsForSpeaker (lines : List Line) (sp : String) : List String :=
  ((lines.filter fun ln => effSpeaker ln = sp).map fun ln => wordTokens ln.text).flatten

/-- Boolean lexicographic comparison of character lists by code point, the
order Python uses to compare strings. -/
def lexLt : List Char → List Char → Bool
  | [], [] => false
  | [], _ :: _ => true
  | _ :: _, [] => false
  | a :: as, b :: bs => if a < b then true else if b < a then false else lexLt as bs

/-- Python's `s1 <= s2` on strings (used through `sorted`), as a computable
relation.  Proved below to agree with Mathlib's linear order on `String`. -/
def wordLe (a b : String) : Prop :=
  lexLt b.data a.data = false

instance : DecidableRel wordLe := fun a b =>
  inferInstanceAs (Decidable (lexLt b.data a.data = false))

/-- Model of `sorted(words_map[sp])`: the distinct words of a speaker in increasing
lexicographic order. -/
def sortedWordsFor (lines : List Line) (sp : String) : List String :=
  List.insertionSort wordLe (dedupFirst (wordsForSpeaker lines sp))

/-- Model of `_unique_words_by_speaker(speaker_lines, sample_limit)`. -/
def unique_words_by_speaker (lines : List Line) (sample_limit : Nat) : List VocabEntry :=
  let speakers := List.insertionSort (keyLeInt spk_num) (speakersInOrder lines)
  speakers.map fun sp =>
    let ws := sortedWordsFor lines sp
    ⟨sp, ws.length, ws.take sample_limit⟩

/-- Spec-side description of a speaker's vocabulary: the set of distinct
case-folded letter/apostrophe runs across the speaker's turn texts. -/
def speakerWordFinset (lines : List Line) (sp : String) : Finset String :=
  (wordsForSpeaker lines sp).toFinset

/-!  ### Speaker turns extraction (`_speaker_turns_from_transcribe_json`) -/

/-- A diarization segment after field extraction and `float` parsing
(`{"speaker": ..., "start": ..., "end": ...}`; `end` is a Lean keyword, so
the field is named `endTime`). -/
structure Segment where
  speaker : String
  start : Rat
  endTime : Rat
deriving DecidableEq, Repr

/-- A raw element of `results.speaker_labels.segments`: each of the three
fields used may be absent.  (Timestamps are taken as already-parsed numbers;
a malformed numeric string makes the original raise, which is outside the
claims modelled here.) -/
structure RawSegment where
  speaker_label : Option String
  start_time : Option Rat
  end_time : Option Rat
deriving DecidableEq, Repr

/-- A transcript item.  `item["alternatives"][0]["content"]` is modelled as
the `content` field; items whose `type` is neither `"pronunciation"` nor
`"punctuation"` are ignored by the loop and are not modelled. -/
inductive Item where
  | pron (start_time : Rat) (content : String)
  | punct (content : String)
deriving DecidableEq, Repr

/-- The fields of the input JSON consumed by
`_speaker_turns_from_transcribe_json`: `results.items`,
`results.speaker_labels.segments`, and the fallback
`results.transcripts[0].transcript`. -/
structure TranscriptInput where
  items : List Item
  speaker_segments : List RawSegment
  transcript : String
deriving DecidableEq, Repr

/-- The mutable state of the extraction loop. -/
structure TBState where
  speaker_lines : List Line
  current_speaker : Option String
  current_text : String
  seg_index : Nat
deriving DecidableEq, Repr

/-- Filtering and sorting of the raw segments: keep those with all three
fields present and sort (stably) by ascending start time. -/
def segmentsOf (raw : List RawSegment) : List Segment :=
  List.insertionSort (fun a b => a.start ≤ b.start)
    (raw.filterMap fun seg =>
      match seg.speaker_label, seg.start_time, seg.end_time with
      | some sp, some s, some e => some ⟨sp, s, e⟩
      | _, _, _ => none)

/-- The `while seg_index < len(segments) and start_time > segments[seg_index]["end"]`
loop: how many leading segments of the remaining list the cursor skips. -/
def skipCount (t : Rat) : List Segment → Nat
  | [] => 0
  | s :: rest => if t > s.endTime then skipCount t rest + 1 else 0

/-- The `flush()` closure: append the accumulator as a completed turn when a
speaker is set and the normalized text is nonempty; always clear the text. -/
def flush (st : TBState) : TBState :=
  match st.current_speaker with
  | none => { st with current_text := "" }
  | some sp =>
    let txt := norm_space st.current_text
    if txt = "" then { st with current_text := "" }
    else { st with speaker_lines := st.speaker_lines ++ [⟨sp, txt⟩], current_text := "" }

/-- The `elif typ == "punctuation"` branch: append directly (no space) to a
nonempty accumulator, otherwise discard.  It takes no segment argument: a
punctuation token neither advances nor queries the segment cursor. -/
def stepPunct (st : TBState) (content : String) : TBState :=
  if st.current_text = "" then st
  else { st with current_text := st.current_text ++ content }

/-- The `for item in items` loop.  A pronunciation token first advances the
cursor, then — if the cursor is still inside the segment list — attributes
the word to the segment's speaker, flushing on speaker change; if the cursor
ran past the end, the loop `break`s and the remaining items are ignored. -/
def processItems (segs : List Segment) : List Item → TBState → TBState
  | [], st => st
  | item :: rest, st =>
    match item with
    | .punct content => processItems segs rest (stepPunct st content)
    | .pron t word =>
      let j := st.seg_index + skipCount t (segs.drop st.seg_index)
      let st' := { st with seg_index := j }
      if h : j < segs.length then
        let speaker := (segs.get ⟨j, h⟩).speaker
        let st1 :=
          if some speaker = st'.current_speaker then st'
          else { flush st' with current_speaker := some speaker }
        let st2 :=
          { st1 with current_text :=
              if st1.current_text = "" then word else st1.current_text ++ " " ++ word }
        processItems segs rest st2
      else st'

/-- The `spk_key` function of `_speaker_turns_from_transcribe_json`:
`int(str(s).split("_")[1])`, with `999999` when that raises. -/
def spk_key (s : String) : Int :=
  match (splitSep '_' s.data).get? 1 with
  | some piece => (pyInt? piece).getD 999999
  | none => 999999

/-- Model of the `sorted` call over the raw-label set, keyed by `spk_key`. -/
def uniqueRawOf (lines : List Line) : List String :=
  List.insertionSort (keyLeInt spk_key)
    (dedupFirst (lines.filterMap fun ln =>
      if ln.speaker = "" then none else some ln.speaker))

/-- Model of `mapping.get(s, "speaker 1")` for the dict
`{sp: f"speaker {i+1}" for i, sp in enumerate(unique_raw)}`. -/
def mappingGet (unique_raw : List String) (s : String) : String :=
  if s ∈ unique_raw then "speaker " ++ toString (unique_raw.indexOf s + 1)
  else "speaker 1"

/-- The final rewriting loop: replace each turn's raw speaker label through
the mapping and de-duplicate each turn's text. -/
def applyMapping (unique_raw : List String) (lines : List Line) : List Line :=
  lines.map fun ln => ⟨mappingGet unique_raw ln.speaker, dedupe_text ln.text⟩

/-- The loop state just after the item loop and the final `flush()`. -/
def preDropState (input : TranscriptInput) : TBState :=
  flush (processItems (segmentsOf input.speaker_segments) input.items ⟨[], none, "", 0⟩)

/-- Model of `_speaker_turns_from_transcribe_json`: returns
`(speaker_count, speaker_lines)`. -/
def speaker_turns_from_transcribe_json (input : TranscriptInput) : Nat × List Line :=
  if input.speaker_segments = [] then
    (1, [⟨"speaker 1", dedupe_text input.transcript⟩])
  else
    let st := preDropState input
    let unique_raw := uniqueRawOf st.speaker_lines
    let lines := drop_consecutive_duplicate_lines (applyMapping unique_raw st.speaker_lines)
    (if unique_raw = [] then 1 else unique_raw.length, lines)

/-- Well-formedness of a sorted segment timeline, the engine's documented
guarantee assumed by the spec's data model: every segment's interval is
ordered, and consecutive segments do not overlap. -/
def SegsWellFormed (segs : List Segment) : Prop :=
  (∀ s ∈ segs, s.start ≤ s.endTime) ∧ segs.Chain' fun a b => a.endTime ≤ b.start

/-- The cursor-independent observable part of the loop state. -/
def obs (st : TBState) : List Line × Option String × String :=
  (st.speaker_lines, st.current_speaker, st.current_text)

/-!  ## Lemmas about whitespace normalization -/

theorem runsBy_nil_eq (p : Char → Bool) (acc : List Char) :
    runsBy p acc [] = if acc.isEmpty then [] else [acc.reverse] := by
  simp [runsBy]

theorem runsBy_cons_pos (p : Char → Bool) (acc : List Char) (c : Char) (cs : List Char)
    (hc : p c = true) : runsBy p acc (c :: cs) = runsBy p (c :: acc) cs := by
  simp [runsBy, hc]

theorem runsBy_cons_neg (p : Char → Bool) (acc : List Char) (c : Char) (cs : List Char)
    (hc : p c = false) :
    runsBy p acc (c :: cs) =
      if acc.isEmpty then runsBy p [] cs else acc.reverse :: runsBy p [] cs := by
  simp [runsBy, hc]

theorem runsBy_append_run (p : Char → Bool) (w : List Char) :
    ∀ (acc t : List Char), (∀ c ∈ w, p c = true) →
      runsBy p acc (w ++ t) = runsBy p (w.reverse ++ acc) t := by
  induction w with
  | nil => intro acc t _; simp
  | cons c w ih =>
    intro acc t hw
    have hc : p c = true := hw c (List.mem_cons_self c w)
    have hw' : ∀ c' ∈ w, p c' = true := fun c' hc' => hw c' (List.mem_cons_of_mem _ hc')
    have h1 : (c :: w) ++ t = c :: (w ++ t) := rfl
    rw [h1, runsBy_cons_pos p acc c _ hc, ih (c :: acc) t hw']
    congr 1
    simp

theorem runsBy_wf (p : Char → Bool) :
    ∀ (cs acc : List Char), (∀ c ∈ acc, p c = true) →
      ∀ w ∈ runsBy p acc cs, w ≠ [] ∧ ∀ c ∈ w, p c = true := by
  intro cs
  induction cs with
  | nil =>
    intro acc hacc w hw
    rw [runsBy_nil_eq] at hw
    by_cases h : acc.isEmpty
    · simp [h] at hw
    · simp only [h, Bool.false_eq_true, if_false, List.mem_singleton] at hw
      subst hw
      refine ⟨by simpa [List.isEmpty_iff] using h, ?_⟩
      intro c hc
      exact hacc c (by simpa using hc)
  | cons c cs ih =>
    intro acc hacc w hw
    by_cases hc : p c
    · rw [runsBy_cons_pos p acc c cs hc] at hw
      refine ih (c :: acc) ?_ w hw
      intro x hx
      rcases List.mem_cons.mp hx with h | h
      · exact h ▸ hc
      · exact hacc x h
    · rw [runsBy_cons_neg p acc c cs (Bool.eq_false_iff.mpr hc)] at hw
      by_cases hemp : acc.isEmpty
      · rw [if_pos hemp] at hw
        exact ih [] (by simp) w hw
      · rw [if_neg hemp] at hw
        rcases List.mem_cons.mp hw with h | h
        · subst h
          refine ⟨by simpa [List.isEmpty_iff] using hemp, ?_⟩
          intro x hx
          exact hacc x (by simpa using hx)
        · exact ih [] (by simp) w h

/-- The words of a string contain no whitespace and are nonempty. -/
theorem chWords_wf (cs : List Char) :
    ∀ w ∈ chWords cs, w ≠ [] ∧ ∀ c ∈ w, (!isPySpace c) = true :=
  runsBy_wf _ cs [] (by simp)

theorem chWords_joinWordsCh :
    ∀ ws : List (List Char),
      (∀ w ∈ ws, w ≠ [] ∧ ∀ c ∈ w, (!isPySpace c) = true) →
      chWords (joinWordsCh ws) = ws := by
  intro ws
  induction ws with
  | nil => intro _; rfl
  | cons w ws ih =>
    intro h
    obtain ⟨hw, hwc⟩ := h w (List.mem_cons_self w ws)
    have hne : (w.reverse ++ ([] : List Char)).isEmpty = false := by
      simp [List.isEmpty_iff, hw]
    cases ws with
    | nil =>
      show runsBy (fun c => !isPySpace c) [] (joinWordsCh [w]) = [w]
      have h1 : joinWordsCh [w] = w ++ [] := by simp [joinWordsCh]
      rw [h1, runsBy_append_run _ w [] [] hwc, runsBy_nil_eq, hne]
      simp
    | cons w' ws' =>
      show runsBy (fun c => !isPySpace c) [] (joinWordsCh (w :: w' :: ws')) = w :: w' :: ws'
      have h1 : joinWordsCh (w :: w' :: ws') = w ++ ' ' :: joinWordsCh (w' :: ws') := rfl
      have hsp : (!isPySpace ' ') = false := by decide
      rw [h1, runsBy_append_run _ w [] _ hwc,
        runsBy_cons_neg _ _ _ _ hsp,
        if_neg (show ¬(w.reverse ++ ([] : List Char)).isEmpty = true by
          simpa [List.isEmpty_iff] using hw)]
      have h2 : runsBy (fun c => !isPySpace c) [] (joinWordsCh (w' :: ws')) = w' :: ws' :=
        ih fun x hx => h x (List.mem_cons_of_mem _ hx)
      rw [h2]
      simp

theorem chWords_norm_space (s : String) :
    chWords (norm_space s).data = chWords s.data :=
  chWords_joinWordsCh (chWords s.data) (chWords_wf s.data)

theorem norm_space_idem (s : String) : norm_space (norm_space s) = norm_space s := by
  show (⟨joinWordsCh (chWords (norm_space s).data)⟩ : String) = norm_space s
  rw [chWords_norm_space]
  rfl

/-!  ## C2: idempotence of `_dedupe_text` -/

/-- C2 (counterexample): the two fixed passes are not idempotent in general.
Eight copies of the bigram "a b" collapse to four copies after the first
application (pass one removes one half, pass two one half of the rest), and a
second application of `dedupe_text` shrinks the text further, to a single
copy.  So `dedupe(dedupe(x)) ≠ dedupe(x)` at this input. -/
theorem dedupe_not_idempotent_on_cascaded_repeat :
    dedupe_text (dedupe_text "a b a b a b a b a b a b a b a b") ≠
      dedupe_text "a b a b a b a b a b a b a b a b" ∧
    dedupe_text "a b a b a b a b a b a b a b a b" = "a b a b" ∧
    dedupe_text (dedupe_text "a b a b a b a b a b a b a b a b") = "a b" := by
  refine ⟨by decide, by decide, by decide⟩

/-- C2 (amended): `dedupe_text` is idempotent on every text whose deduped form
is left unchanged by one further n-gram-removal pass — equivalently, whenever
the two fixed passes already reached a fixed point of the pass.  (On texts with
more deeply cascaded repeats, such as eight copies of "a b", a second
application of `dedupe_text` shrinks the text further, as the counterexample
shows.) -/
theorem dedupe_idempotent_of_extra_pass_fixed (x : String)
    (h : dedupe_immediate_repeated_ngrams (dedupe_text x) 2 12 = dedupe_text x) :
    dedupe_text (dedupe_text x) = dedupe_text x := by
  show norm_space (dedupe_immediate_repeated_ngrams
      (dedupe_immediate_repeated_ngrams (dedupe_text x) 2 12) 2 12) = dedupe_text x
  rw [h, h]
  exact norm_space_idem _

/-- Witness for `dedupe_idempotent_of_extra_pass_fixed` at `"hello there"`. -/
theorem dedupe_idempotent_of_extra_pass_fixed_witness :
    dedupe_text (dedupe_text "hello there") = dedupe_text "hello there" :=
  dedupe_idempotent_of_extra_pass_fixed "hello there" (by decide)

/-!  ## C9: the minimum n-gram bound guards single repeated words -/

/-- C9: the n-gram search with `n_min = 2` never reports a repeated block of
fewer than two words, a two-word text consisting of one repeated word is
returned unchanged by the scanning loop, and in particular
`dedupe_text "yes yes" = "yes yes"`. -/
theorem min_ngram_guard :
    (∀ (rest : List (List Char)) (hi n : Nat),
        findRepeat 2 rest hi = some n → 2 ≤ n)
    ∧ (∀ w : List Char, dedupeGo 2 12 2 [w, w] = [w, w])
    ∧ dedupe_text "yes yes" = "yes yes" := by
  refine ⟨?_, fun w => by simp [dedupeGo, findRepeat], by decide⟩
  intro rest hi
  induction hi with
  | zero => intro n h; simp [findRepeat] at h
  | succ k ih =>
    intro n h
    simp only [findRepeat] at h
    by_cases hk : k + 1 < 2
    · simp [hk] at h
    · simp only [hk, if_false] at h
      by_cases heq : rest.take (k + 1) = (rest.drop (k + 1)).take (k + 1)
      · simp only [heq, if_true, Option.some.injEq] at h
        omega
      · simp only [heq, if_false] at h
        exact ih n h

/-- Witness for `min_ngram_guard`: its first part applied at a concrete
four-word text where the search reports a two-word block. -/
theorem min_ngram_guard_witness :
    dedupe_text "yes yes" = "yes yes" ∧ 2 ≤ 2 :=
  ⟨min_ngram_guard.2.2,
    min_ngram_guard.1 [['a'], ['b'], ['a'], ['b']] 2 2 (by decide)⟩

/-!  ## C5: empty segment list fallback -/

/-- C5: when the segment list is empty, diarization is skipped and the result
is a single synthetic turn `"speaker 1"` holding the deduplicated fallback
transcript, with `speaker_count = 1`; in particular the fallback text
`"hello there"` yields the turn `{speaker: "speaker 1", text: "hello there"}`. -/
theorem empty_segments_fallback :
    (∀ (items : List Item) (transcript : String),
        speaker_turns_from_transcribe_json ⟨items, [], transcript⟩ =
          (1, [⟨"speaker 1", dedupe_text transcript⟩]))
    ∧ speaker_turns_from_transcribe_json ⟨[], [], "hello there"⟩ =
        (1, [⟨"speaker 1", "hello there"⟩]) := by
  constructor
  · intro items transcript
    rfl
  · decide

/-!  ## C7: punctuation tokens -/

/-- C7: a punctuation token is processed by `stepPunct`, which takes no
segment argument at all (so it can neither advance nor query the segment
cursor), leaves the cursor, the completed turns and the current speaker
untouched, appends its content directly (no separating space) to a nonempty
accumulator, and discards the token when the accumulator is empty; the item
loop processes a leading punctuation token exactly this way. -/
theorem punctuation_token_behavior (st : TBState) (c : String) :
    stepPunct st c =
      (if st.current_text = "" then st
       else { st with current_text := st.current_text ++ c })
    ∧ (stepPunct st c).seg_index = st.seg_index
    ∧ (stepPunct st c).speaker_lines = st.speaker_lines
    ∧ (stepPunct st c).current_speaker = st.current_speaker
    ∧ ∀ (segs : List Segment) (rest : List Item),
        processItems segs (Item.punct c :: rest) st =
          processItems segs rest (stepPunct st c) := by
  refine ⟨rfl, ?_, ?_, ?_, fun segs rest => rfl⟩ <;>
    · unfold stepPunct
      split <;> rfl

/-!  ## C6: cross-turn duplicate collapse -/

theorem asciiLowerStr_eq_empty_iff (s : String) : asciiLowerStr s = "" ↔ s = "" := by
  constructor
  · intro h
    have h2 : s.data.map asciiLower = [] := congrArg String.data h
    exact String.ext (List.map_eq_nil_iff.mp h2)
  · intro h
    subst h
    rfl

theorem drop_duplicate_lines_eq_spec_aux :
    ∀ (lines : List Line) (prev : Option String),
      (∀ ln ∈ lines, norm_space ln.text ≠ "") →
      drop_consecutive_duplicate_lines_aux prev lines = specDropConsecutiveAux prev lines := by
  intro lines
  induction lines with
  | nil => intro prev _; rfl
  | cons ln rest ih =>
    intro prev h
    have hln : norm_space ln.text ≠ "" := h ln (List.mem_cons_self ln rest)
    have htxt : asciiLowerStr (norm_space ln.text) ≠ "" :=
      fun hc => hln ((asciiLowerStr_eq_empty_iff _).mp hc)
    have hrest : ∀ l ∈ rest, norm_space l.text ≠ "" :=
      fun l hl => h l (List.mem_cons_of_mem _ hl)
    simp only [drop_consecutive_duplicate_lines_aux, specDropConsecutiveAux, htxt, if_false]
    by_cases heq : some (asciiLowerStr (norm_space ln.text)) = prev
    · simp only [heq, if_true]
      exact ih prev hrest
    · simp only [heq, if_false]
      rw [ih _ hrest]

/-- C6: on turns whose normalized text is nonempty (every turn the pipeline
individually deduplicates is such), `_drop_consecutive_duplicate_lines` is
exactly the spec's rule: a turn whose case-folded, whitespace-normalized text
equals the previous surviving turn's key is dropped, regardless of speaker;
every other turn survives in order.  In particular the claimed two-turn
example collapses to its first turn. -/
theorem cross_turn_duplicate_collapse :
    (∀ lines : List Line,
        (∀ ln ∈ lines, norm_space ln.text ≠ "") →
        drop_consecutive_duplicate_lines lines = specDropConsecutive lines)
    ∧ drop_consecutive_duplicate_lines
        [⟨"speaker 1", "How many words do you need"⟩,
         ⟨"speaker 3", "how many words do you need"⟩] =
        [⟨"speaker 1", "How many words do you need"⟩] := by
  constructor
  · intro lines h
    exact drop_duplicate_lines_eq_spec_aux lines none h
  · decide

/-- Witness for `cross_turn_duplicate_collapse` at a concrete one-turn list. -/
theorem cross_turn_duplicate_collapse_witness :
    drop_consecutive_duplicate_lines [⟨"speaker 2", "ok then"⟩] =
      specDropConsecutive [⟨"speaker 2", "ok then"⟩] :=
  cross_turn_duplicate_collapse.1 _ (by decide)

/-!  ## C4: the raw-label ordering -/

/-- C4 (counterexample): a non-matching label does not sort after every
numeric-suffix label.  The code keys non-matching labels with the sentinel
`999999`, so the numeric label `"spk_1000000"` (suffix `1000000`) sorts
*after* the non-matching label `"zzz"`, and `"zzz"` receives `"speaker 1"`
while the claim's ordering rule would give it `"speaker 2"`. -/
theorem nonmatching_label_before_large_numeric_suffix :
    uniqueRawOf [⟨"spk_1000000", "a"⟩, ⟨"zzz", "b"⟩] ≠ ["spk_1000000", "zzz"]
    ∧ uniqueRawOf [⟨"spk_1000000", "a"⟩, ⟨"zzz", "b"⟩] = ["zzz", "spk_1000000"]
    ∧ spk_key "spk_1000000" = 1000000
    ∧ spk_key "zzz" = 999999
    ∧ mappingGet ["zzz", "spk_1000000"] "zzz" = "speaker 1"
    ∧ mappingGet ["zzz", "spk_1000000"] "spk_1000000" = "speaker 2" := by
  refine ⟨by decide, by decide, by decide, by decide, by decide, by decide⟩

/-- C4 (amended): the raw labels used by the turns are ordered by ascending
`spk_key` — the numeric suffix when `int(label.split("_")[1])` parses, and the
sentinel value `999999` otherwise — so non-matching labels sort after exactly
those numeric labels whose suffix is below `999999`, with key ties broken by
set-iteration order rather than lexicographically; ordinals `"speaker 1"`,
`"speaker 2"`, … are then assigned in that order and applied uniformly to
every turn's speaker field.  In particular `{"spk_2","spk_0","spk_1"}` maps to
`spk_0 ↦ "speaker 1"`, `spk_1 ↦ "speaker 2"`, `spk_2 ↦ "speaker 3"`. -/
theorem speaker_ordinal_mapping_by_key :
    (∀ lines : List Line, List.Sorted (keyLeInt spk_key) (uniqueRawOf lines))
    ∧ (∀ (u : List String) (ls : List Line),
        (applyMapping u ls).map (fun ln => ln.speaker) =
          ls.map fun ln => mappingGet u ln.speaker)
    ∧ uniqueRawOf [⟨"spk_2", "a"⟩, ⟨"spk_0", "b"⟩, ⟨"spk_1", "c"⟩] =
        ["spk_0", "spk_1", "spk_2"]
    ∧ applyMapping ["spk_0", "spk_1", "spk_2"]
        [⟨"spk_2", "a"⟩, ⟨"spk_0", "b"⟩, ⟨"spk_1", "c"⟩] =
        [⟨"speaker 3", "a"⟩, ⟨"speaker 1", "b"⟩, ⟨"speaker 2", "c"⟩] := by
  refine ⟨?_, ?_, by decide, by decide⟩
  · intro lines
    exact List.sorted_insertionSort (keyLeInt spk_key) _
  · intro u ls
    simp [applyMapping, List.map_map]

/-!  ## C10: the speaker count is always positive -/

/-- C10: the returned `speaker_count` is at least `1` for every input; it is
exactly `1` when the segment list is empty; and when segments exist but the
item loop produced no turn at all (for example because no pronunciation token
starts within or before a segment), the result is `speaker_count = 1` with an
empty turn list. -/
theorem speaker_count_positive :
    (∀ input : TranscriptInput, 1 ≤ (speaker_turns_from_transcribe_json input).1)
    ∧ (∀ input : TranscriptInput, input.speaker_segments = [] →
        (speaker_turns_from_transcribe_json input).1 = 1)
    ∧ (∀ input : TranscriptInput, input.speaker_segments ≠ [] →
        (preDropState input).speaker_lines = [] →
        speaker_turns_from_transcribe_json input = (1, [])) := by
  refine ⟨?_, ?_, ?_⟩
  · intro input
    unfold speaker_turns_from_transcribe_json
    by_cases h : input.speaker_segments = []
    · simp [h]
    · simp only [h, if_false]
      by_cases hu : uniqueRawOf (preDropState input).speaker_lines = []
      · simp [hu]
      · simp only [hu, if_false]
        exact List.length_pos.mpr hu
  · intro input h
    simp [speaker_turns_from_transcribe_json, h]
  · intro input h hlines
    simp only [speaker_turns_from_transcribe_json, if_neg h, hlines]
    rfl

/-- Witness for `speaker_count_positive`: a one-segment input whose only
pronunciation token starts after the segment ends yields `(1, [])`. -/
theorem speaker_count_positive_witness :
    speaker_turns_from_transcribe_json
      ⟨[.pron 5 "late"], [⟨some "spk_0", some 0, some 1⟩], "f"⟩ = (1, []) :=
  speaker_count_positive.2.2 _ (by decide) (by decide)

/-!  ## C3: which turns determine the speaker identifiers and the count -/

theorem mem_of_mem_drop_duplicate_aux :
    ∀ (lines : List Line) (prev : Option String) (ln : Line),
      ln ∈ drop_consecutive_duplicate_lines_aux prev lines → ln ∈ lines := by
  intro lines
  induction lines with
  | nil => intro prev ln h; exact absurd h (List.not_mem_nil ln)
  | cons l rest ih =>
    intro prev ln h
    simp only [drop_consecutive_duplicate_lines_aux] at h
    by_cases h1 : asciiLowerStr (norm_space l.text) = ""
    · simp only [h1, if_true] at h
      exact List.mem_cons_of_mem _ (ih prev ln h)
    · simp only [h1, if_false] at h
      by_cases h2 : some (asciiLowerStr (norm_space l.text)) = prev
      · simp only [h2, if_true] at h
        exact List.mem_cons_of_mem _ (ih prev ln h)
      · simp only [h2, if_false] at h
        rcases List.mem_cons.mp h with h3 | h3
        · exact h3 ▸ List.mem_cons_self l rest
        · exact List.mem_cons_of_mem _ (ih _ ln h3)

theorem mappingGet_shape (u : List String) (s : String) :
    ∃ n, 1 ≤ n ∧ n ≤ max 1 u.length ∧ mappingGet u s = "speaker " ++ toString n := by
  unfold mappingGet
  by_cases h : s ∈ u
  · refine ⟨u.indexOf s + 1, Nat.succ_le_succ (Nat.zero_le _), ?_, by simp [h]⟩
    have := List.indexOf_lt_length.mpr h
    omega
  · exact ⟨1, le_refl 1, le_max_left 1 _, by simp [h]; decide⟩

/-- C3 (counterexample): the surviving turn lists of the two inputs below are
*identical* (a single `"speaker 1"` turn saying "hello"), yet the returned
`speaker_count`s differ (`2` vs `1`): in the first input a second raw label's
turn was removed by the cross-turn duplicate collapse *after* the count was
taken.  Hence neither the identifiers nor `speaker_count` are determined by
the raw labels used in the surviving turns. -/
theorem speaker_count_not_from_surviving_turns :
    (speaker_turns_from_transcribe_json
        ⟨[.pron 0 "hello", .pron 2 "hello"],
         [⟨some "spk_0", some 0, some 1⟩, ⟨some "spk_1", some 2, some 3⟩], "f"⟩).2 =
      (speaker_turns_from_transcribe_json
        ⟨[.pron 0 "hello"], [⟨some "spk_0", some 0, some 1⟩], "f"⟩).2
    ∧ (speaker_turns_from_transcribe_json
        ⟨[.pron 0 "hello", .pron 2 "hello"],
         [⟨some "spk_0", some 0, some 1⟩, ⟨some "spk_1", some 2, some 3⟩], "f"⟩).1 = 2
    ∧ (speaker_turns_from_transcribe_json
        ⟨[.pron 0 "hello"], [⟨some "spk_0", some 0, some 1⟩], "f"⟩).1 = 1 := by
  refine ⟨by decide, by decide, by decide⟩

/-- C3 (amended): every speaker identifier in the returned turns has the form
`"speaker n"` with `n` a 1-based ordinal bounded by the speaker count, and the
identifiers together with `speaker_count` are determined by the set of raw
labels used in the turns as first assembled — *before* per-turn deduplication
and cross-turn duplicate removal — not by the surviving turns. -/
theorem speaker_identifiers_from_first_assembly (input : TranscriptInput)
    (h : input.speaker_segments ≠ []) :
    (speaker_turns_from_transcribe_json input).1 =
      (if uniqueRawOf (preDropState input).speaker_lines = [] then 1
       else (uniqueRawOf (preDropState input).speaker_lines).length)
    ∧ ∀ ln ∈ (speaker_turns_from_transcribe_json input).2,
        ∃ n, 1 ≤ n ∧
          n ≤ max 1 (uniqueRawOf (preDropState input).speaker_lines).length ∧
          ln.speaker = "speaker " ++ toString n := by
  constructor
  · simp [speaker_turns_from_transcribe_json, if_neg h]
  · intro ln hln
    simp only [speaker_turns_from_transcribe_json, if_neg h] at hln
    have h1 : ln ∈ applyMapping (uniqueRawOf (preDropState input).speaker_lines)
        (preDropState input).speaker_lines :=
      mem_of_mem_drop_duplicate_aux _ none ln hln
    obtain ⟨ln0, _, h2⟩ := List.mem_map.mp h1
    obtain ⟨n, hn1, hn2, hn3⟩ :=
      mappingGet_shape (uniqueRawOf (preDropState input).speaker_lines) ln0.speaker
    exact ⟨n, hn1, hn2, by rw [← h2]; exact hn3⟩

/-- Witness for `speaker_identifiers_from_first_assembly` at a one-token,
one-segment input. -/
theorem speaker_identifiers_from_first_assembly_witness :
    (speaker_turns_from_transcribe_json
        ⟨[.pron 0 "hello"], [⟨some "spk_0", some 0, some 1⟩], "f"⟩).1 =
      (if uniqueRawOf (preDropState
            ⟨[.pron 0 "hello"], [⟨some "spk_0", some 0, some 1⟩], "f"⟩).speaker_lines = []
       then 1
       else (uniqueRawOf (preDropState
            ⟨[.pron 0 "hello"], [⟨some "spk_0", some 0, some 1⟩], "f"⟩).speaker_lines).length) :=
  (speaker_identifiers_from_first_assembly _ (by decide)).1

/-!  ## C8: the vocabulary analyzer -/

theorem mem_dedupFirstAux :
    ∀ (l seen : List String) (a : String),
      a ∈ dedupFirstAux seen l ↔ a ∈ l ∧ a ∉ seen := by
  intro l
  induction l with
  | nil => intro seen a; simp [dedupFirstAux]
  | cons b l ih =>
    intro seen a
    simp only [dedupFirstAux]
    by_cases hb : b ∈ seen
    · rw [if_pos hb, ih]
      constructor
      · exact fun ⟨h1, h2⟩ => ⟨List.mem_cons_of_mem _ h1, h2⟩
      · rintro ⟨h1, h2⟩
        rcases List.mem_cons.mp h1 with h3 | h3
        · exact absurd (h3 ▸ hb) h2
        · exact ⟨h3, h2⟩
    · rw [if_neg hb]
      constructor
      · intro h
        rcases List.mem_cons.mp h with h3 | h3
        · exact ⟨h3 ▸ List.mem_cons_self b l, h3 ▸ hb⟩
        · obtain ⟨h4, h5⟩ := (ih _ _).mp h3
          exact ⟨List.mem_cons_of_mem _ h4,
            fun hc => h5 (List.mem_cons_of_mem _ hc)⟩
      · rintro ⟨h1, h2⟩
        by_cases hab : a = b
        · exact hab ▸ List.mem_cons_self a _
        · rcases List.mem_cons.mp h1 with h3 | h3
          · exact absurd h3 hab
          · refine List.mem_cons_of_mem _ ((ih _ _).mpr ⟨h3, ?_⟩)
            intro hc
            rcases List.mem_cons.mp hc with h4 | h4
            · exact hab h4
            · exact h2 h4

theorem nodup_dedupFirstAux :
    ∀ (l seen : List String), (dedupFirstAux seen l).Nodup := by
  intro l
  induction l with
  | nil => intro seen; simp [dedupFirstAux]
  | cons b l ih =>
    intro seen
    simp only [dedupFirstAux]
    by_cases hb : b ∈ seen
    · rw [if_pos hb]; exact ih seen
    · rw [if_neg hb]
      refine List.nodup_cons.mpr ⟨?_, ih _⟩
      intro hc
      exact ((mem_dedupFirstAux _ _ _).mp hc).2 (List.mem_cons_self b seen)

theorem mem_dedupFirst (l : List String) (a : String) :
    a ∈ dedupFirst l ↔ a ∈ l := by
  rw [dedupFirst, mem_dedupFirstAux]
  simp

theorem nodup_dedupFirst (l : List String) : (dedupFirst l).Nodup :=
  nodup_dedupFirstAux l []

theorem toFinset_dedupFirst (l : List String) : (dedupFirst l).toFinset = l.toFinset := by
  ext a
  simp [mem_dedupFirst]

theorem length_dedupFirst (l : List String) : (dedupFirst l).length = l.toFinset.card := by
  rw [← toFinset_dedupFirst, List.toFinset_card_of_nodup (nodup_dedupFirst l)]

theorem lexLt_iff_lex : ∀ as bs : List Char, lexLt as bs = true ↔ List.Lex (· < ·) as bs := by
  intro as
  induction as with
  | nil =>
    intro bs
    cases bs with
    | nil => simp [lexLt]
    | cons b bs => simp [lexLt]; exact List.Lex.nil
  | cons a as ih =>
    intro bs
    cases bs with
    | nil => simp [lexLt]
    | cons b bs =>
      simp only [lexLt]
      by_cases hab : a < b
      · simp [hab]
        exact List.Lex.rel hab
      · by_cases hba : b < a
        · simp [hab, hba]
          intro h
          cases h with
          | cons h => exact absurd hba (lt_irrefl _)
          | rel h => exact absurd h hab
        · have heq : a = b := le_antisymm (not_lt.mp hba) (not_lt.mp hab)
          subst heq
          simp [hab, hba, ih bs]
          exact List.Lex.cons_iff.symm

/-- The computable comparison agrees with Mathlib's linear order on `String`,
which in turn agrees with Python's code-point comparison. -/
theorem wordLe_iff (a b : String) : wordLe a b ↔ a ≤ b := by
  unfold wordLe
  rw [String.le_iff_toList_le]
  have h1 : (b.toList < a.toList) ↔ List.Lex (· < ·) b.data a.data := Iff.rfl
  rw [← not_lt, h1, ← lexLt_iff_lex]
  simp

theorem sortedWordsFor_eq_sort (lines : List Line) (sp : String) :
    sortedWordsFor lines sp = (speakerWordFinset lines sp).sort (· ≤ ·) := by
  have htot : IsTotal String wordLe :=
    ⟨fun a b => by rw [wordLe_iff, wordLe_iff]; exact le_total a b⟩
  have htrans : IsTrans String wordLe :=
    ⟨fun a b c h1 h2 => by
      rw [wordLe_iff] at h1 h2 ⊢
      exact le_trans h1 h2⟩
  have hsorted1 : List.Sorted (· ≤ ·) (sortedWordsFor lines sp) := by
    have := @List.sorted_insertionSort String wordLe _ htot htrans
      (dedupFirst (wordsForSpeaker lines sp))
    exact this.imp fun {a b} hab => (wordLe_iff a b).mp hab
  have hsorted2 : List.Sorted (· ≤ ·) ((speakerWordFinset lines sp).sort (· ≤ ·)) :=
    Finset.sort_sorted _ _
  have hnd1 : (sortedWordsFor lines sp).Nodup :=
    (List.perm_insertionSort wordLe _).symm.nodup
      (nodup_dedupFirst (wordsForSpeaker lines sp))
  have hperm : (sortedWordsFor lines sp).Perm
      ((speakerWordFinset lines sp).sort (· ≤ ·)) := by
    refine (List.perm_ext_iff_of_nodup hnd1 (Finset.sort_nodup _ _)).mpr ?_
    intro a
    rw [Finset.mem_sort]
    show a ∈ List.insertionSort wordLe _ ↔ _
    rw [List.mem_insertionSort, mem_dedupFirst, speakerWordFinset, List.mem_toFinset]
  exact List.eq_of_perm_of_sorted hperm hsorted1 hsorted2

theorem length_sortedWordsFor (lines : List Line) (sp : String) :
    (sortedWordsFor lines sp).length = (speakerWordFinset lines sp).card := by
  show (List.insertionSort wordLe _).length = _
  rw [List.length_insertionSort, length_dedupFirst]
  rfl

/-- C8: the vocabulary analyzer emits one entry per distinct (defaulted)
speaker, ordered by the speaker's numeric ordinal; each entry's
`unique_word_count` is the cardinality of the set of distinct case-folded
letter/apostrophe runs of that speaker's turn texts, and its sample is the
first `limit` of those words in increasing lexicographic order — a display
truncation that cannot affect the count.  In particular the turn text
`"Cat cat dog."` yields a count of `2` and the sample `["cat", "dog"]`. -/
theorem vocabulary_per_speaker (lines : List Line) (limit : Nat) :
    List.Sorted (fun e1 e2 : VocabEntry => spk_num e1.speaker ≤ spk_num e2.speaker)
      (unique_words_by_speaker lines limit)
    ∧ ((unique_words_by_speaker lines limit).map fun e => e.speaker).Nodup
    ∧ ((unique_words_by_speaker lines limit).map fun e => e.speaker).toFinset =
        (lines.map effSpeaker).toFinset
    ∧ (∀ e ∈ unique_words_by_speaker lines limit,
        e.unique_word_count = (speakerWordFinset lines e.speaker).card
        ∧ e.unique_words_sample =
            ((speakerWordFinset lines e.speaker).sort (· ≤ ·)).take limit)
    ∧ unique_words_by_speaker [⟨"speaker 1", "Cat cat dog."⟩] 30 =
        [⟨"speaker 1", 2, ["cat", "dog"]⟩] := by
  have hmap : (unique_words_by_speaker lines limit).map (fun e => e.speaker) =
      List.insertionSort (keyLeInt spk_num) (speakersInOrder lines) := by
    unfold unique_words_by_speaker
    rw [List.map_map]
    exact List.map_id _
  refine ⟨?_, ?_, ?_, ?_, by decide⟩
  · exact List.Pairwise.map _ (fun a b hab => hab)
      (List.sorted_insertionSort (keyLeInt spk_num) (speakersInOrder lines))
  · rw [hmap]
    exact (List.perm_insertionSort _ _).symm.nodup
      (nodup_dedupFirst (lines.map effSpeaker))
  · rw [hmap, List.toFinset_eq_of_perm _ _ (List.perm_insertionSort _ _)]
    exact toFinset_dedupFirst _
  · intro e he
    unfold unique_words_by_speaker at he
    obtain ⟨sp, _, hsp⟩ := List.mem_map.mp he
    subst hsp
    exact ⟨length_sortedWordsFor lines sp,
      congrArg (List.take limit) (sortedWordsFor_eq_sort lines sp)⟩

/-- Witness for `vocabulary_per_speaker`: its per-entry part applied to the
single entry of the `"Cat cat dog."` example. -/
theorem vocabulary_per_speaker_witness :
    (⟨"speaker 1", 2, ["cat", "dog"]⟩ : VocabEntry).unique_word_count =
      (speakerWordFinset [⟨"speaker 1", "Cat cat dog."⟩] "speaker 1").card
    ∧ (⟨"speaker 1", 2, ["cat", "dog"]⟩ : VocabEntry).unique_words_sample =
        ((speakerWordFinset [⟨"speaker 1", "Cat cat dog."⟩] "speaker 1").sort (· ≤ ·)).take 30 :=
  (vocabulary_per_speaker [⟨"speaker 1", "Cat cat dog."⟩] 30).2.2.2.1
    ⟨"speaker 1", 2, ["cat", "dog"]⟩ (by decide)

/-!  ## C1: the token cutoff past the last segment -/

theorem skipCount_all (t : Rat) :
    ∀ l : List Segment, (∀ s ∈ l, s.endTime < t) → skipCount t l = l.length := by
  intro l
  induction l with
  | nil => intro _; rfl
  | cons s l ih =>
    intro h
    have hs : s.endTime < t := h s (List.mem_cons_self s l)
    simp only [skipCount, if_pos hs, List.length_cons]
    rw [ih fun x hx => h x (List.mem_cons_of_mem _ hx)]

theorem endTime_le_getLast :
    ∀ segs : List Segment, SegsWellFormed segs → ∀ (h : segs ≠ []) (s : Segment),
      s ∈ segs → s.endTime ≤ (segs.getLast h).endTime := by
  intro segs
  induction segs with
  | nil => intro _ h; exact absurd rfl h
  | cons a tail ih =>
    intro hwf h s hs
    cases tail with
    | nil =>
      rcases List.mem_cons.mp hs with h1 | h1
      · rw [h1]
        exact le_refl _
      · exact absurd h1 (List.not_mem_nil s)
    | cons b tail' =>
      have hbt : b :: tail' ≠ [] := List.cons_ne_nil b tail'
      have hlast : (a :: b :: tail').getLast h = (b :: tail').getLast hbt :=
        List.getLast_cons hbt
      have hwf' : SegsWellFormed (b :: tail') :=
        ⟨fun x hx => hwf.1 x (List.mem_cons_of_mem _ hx), (List.chain'_cons.mp hwf.2).2⟩
      rcases List.mem_cons.mp hs with h1 | h1
      · have hab : a.endTime ≤ b.start := (List.chain'_cons.mp hwf.2).1
        have hbb : b.start ≤ b.endTime := hwf.1 b (by simp)
        have hb : b.endTime ≤ ((b :: tail').getLast hbt).endTime :=
          ih hwf' hbt b (List.mem_cons_self b tail')
        rw [h1, hlast]
        exact le_trans hab (le_trans hbb hb)
      · rw [hlast]
        exact ih hwf' hbt s h1

theorem processItems_cut (segs : List Segment) (t : Rat) (c : String) (rest : List Item)
    (hall : ∀ s ∈ segs, s.endTime < t) :
    ∀ (pre : List Item) (st : TBState),
      obs (processItems segs (pre ++ Item.pron t c :: rest) st) =
        obs (processItems segs pre st) := by
  intro pre
  induction pre with
  | nil =>
    intro st
    show obs (processItems segs (Item.pron t c :: rest) st) = obs st
    have hskip : skipCount t (segs.drop st.seg_index) = (segs.drop st.seg_index).length :=
      skipCount_all t _ fun s hs => hall s (List.mem_of_mem_drop hs)
    have hj : ¬(st.seg_index + skipCount t (segs.drop st.seg_index) < segs.length) := by
      rw [hskip, List.length_drop]
      omega
    simp only [processItems]
    rw [dif_neg hj]
    rfl
  | cons item pre ih =>
    intro st
    cases item with
    | punct content =>
      show obs (processItems segs (Item.punct content :: (pre ++ Item.pron t c :: rest)) st) = _
      simp only [processItems]
      exact ih (stepPunct st content)
    | pron u w =>
      show obs (processItems segs (Item.pron u w :: (pre ++ Item.pron t c :: rest)) st) = _
      simp only [processItems]
      by_cases hj : st.seg_index + skipCount u (segs.drop st.seg_index) < segs.length
      · rw [dif_pos hj, dif_pos hj]
        exact ih _
      · rw [dif_neg hj, dif_neg hj]

theorem flush_lines_eq (st1 st2 : TBState) (h1 : st1.speaker_lines = st2.speaker_lines)
    (h2 : st1.current_speaker = st2.current_speaker)
    (h3 : st1.current_text = st2.current_text) :
    (flush st1).speaker_lines = (flush st2).speaker_lines := by
  unfold flush
  rw [h2, h3]
  cases st2.current_speaker with
  | none => simpa using h1
  | some sp =>
    by_cases ht : norm_space st2.current_text = ""
    · simp [ht, h1]
    · simp [ht, h1]

theorem speaker_turns_eq_of_lines_eq (i1 i2 : TranscriptInput)
    (hseg : i1.speaker_segments = i2.speaker_segments)
    (h1 : i1.speaker_segments ≠ [])
    (hlines : (preDropState i1).speaker_lines = (preDropState i2).speaker_lines) :
    speaker_turns_from_transcribe_json i1 = speaker_turns_from_transcribe_json i2 := by
  have h2 : i2.speaker_segments ≠ [] := hseg ▸ h1
  simp only [speaker_turns_from_transcribe_json, if_neg h1, if_neg h2, hlines]

/-- C1: on a well-formed, non-empty sorted segment timeline, a pronunciation
token whose start time exceeds the last segment's end time contributes to no
turn, and neither does any later token of the stream (pronunciation or
punctuation): the whole result equals that of the input truncated just before
the offending token.  The transformation is a total function, so it returns
normally on such inputs. -/
theorem token_cutoff_after_last_segment (input : TranscriptInput)
    (pre rest : List Item) (t : Rat) (c : String)
    (hwf : SegsWellFormed (segmentsOf input.speaker_segments))
    (hne : segmentsOf input.speaker_segments ≠ [])
    (ht : ((segmentsOf input.speaker_segments).getLast hne).endTime < t)
    (hitems : input.items = pre ++ Item.pron t c :: rest) :
    speaker_turns_from_transcribe_json input =
      speaker_turns_from_transcribe_json ⟨pre, input.speaker_segments, input.transcript⟩ := by
  have hraw : input.speaker_segments ≠ [] := by
    intro h0
    apply hne
    rw [h0]
    rfl
  have hall : ∀ s ∈ segmentsOf input.speaker_segments, s.endTime < t :=
    fun s hs => lt_of_le_of_lt (endTime_le_getLast _ hwf hne s hs) ht
  have hobs : obs (processItems (segmentsOf input.speaker_segments) input.items ⟨[], none, "", 0⟩) =
      obs (processItems (segmentsOf input.speaker_segments) pre ⟨[], none, "", 0⟩) := by
    rw [hitems]
    exact processItems_cut _ t c rest hall pre _
  have hlines : (preDropState input).speaker_lines =
      (preDropState ⟨pre, input.speaker_segments, input.transcript⟩).speaker_lines :=
    flush_lines_eq _ _ (congrArg (fun x => x.1) hobs) (congrArg (fun x => x.2.1) hobs)
      (congrArg (fun x => x.2.2) hobs)
  exact speaker_turns_eq_of_lines_eq _ _ rfl hraw hlines

/-- Witness for `token_cutoff_after_last_segment`: with one segment ending at
time `1`, the token at time `5` and the punctuation after it are dropped. -/
theorem token_cutoff_after_last_segment_witness :
    speaker_turns_from_transcribe_json
        ⟨[.pron 0 "hi", .pron 5 "lost", .punct "!"], [⟨some "spk_0", some 0, some 1⟩], "f"⟩ =
      speaker_turns_from_transcribe_json
        ⟨[.pron 0 "hi"], [⟨some "spk_0", some 0, some 1⟩], "f"⟩ :=
  token_cutoff_after_last_segment _ [.pron 0 "hi"] [.punct "!"] 5 "lost"
    (by
      have hseg : segmentsOf [(⟨some "spk_0", some 0, some 1⟩ : RawSegment)] =
          [⟨"spk_0", 0, 1⟩] := by decide
      show SegsWellFormed (segmentsOf [(⟨some "spk_0", some 0, some 1⟩ : RawSegment)])
      unfold SegsWellFormed
      rw [hseg]
      exact ⟨by decide, by simp⟩)
    (by decide) (by decide) rfl

end Lumi
